import Mathlib

/-!
Shallow embedding of `include/FixedPoint.h` from the tumanako-inverter-fw-lib
repository: the template class `tFixedPoint< int QBits, typename DataType >`
and its support macros, together with proofs about the fixed-point arithmetic
operations.

Modelling conventions:
* the storage value `value_` (C `DataType`, by default `int`) is modelled as an
  unbounded `Int`; this is the defined-behaviour core of the C++ code (signed
  overflow is undefined behaviour in C++).  Where a claim is about wrap-around
  at a concrete storage width, a width-parameterised variant using `wrap` is
  provided (`mulCrossW`).
* the C arithmetic right shift `x >> n` on a signed value is floor division by
  `2^n`, modelled by `sar`; the C left shift `x << n` is `x * 2^n`, modelled by
  `shl`; C signed integer division truncates toward zero, modelled by `cdiv`
  (Lean's `Int.tdiv`).
* the template parameter `QBits` becomes a `Nat` index of the structure, so a
  `tFixedPoint Q` value corresponds to `tFixedPoint<Q, int>` in the source.
-/

/-- Arithmetic right shift of a (two's complement) signed integer by `n` bits:
floor division by `2^n`.  Models the C expression `x >> n` on signed `x`. -/
def sar (x : Int) (n : Nat) : Int := Int.fdiv x (2 ^ n)

/-- Left shift of a signed integer by `n` bits: multiplication by `2^n`.
Models the C expression `x << n` in its defined-behaviour range. -/
def shl (x : Int) (n : Nat) : Int := x * 2 ^ n

/-- C signed integer division: truncation toward zero. -/
def cdiv (a b : Int) : Int := Int.tdiv a b

/-- Two's complement wrap-around of an integer to a signed `w`-bit storage
width: the unique value congruent to `x` modulo `2^w` lying in
`[-2^(w-1), 2^(w-1))`. -/
def wrap (w : Nat) (x : Int) : Int := (x + 2 ^ (w - 1)) % 2 ^ w - 2 ^ (w - 1)

/-- Model of the macro `FIXEDPOINT_IMPL_DIVIDE( dividend, divisor )` from
`FixedPoint.h` line 143: `(((divisor) + ((dividend) >> 1)) / (dividend))`.
The parameter names are kept exactly as in the source (note that the
parameter named `dividend` ends up as the denominator). -/
def FIXEDPOINT_IMPL_DIVIDE (dividend divisor : Int) : Int :=
  cdiv (divisor + sar dividend 1) dividend

/-- Model of the macro `FIXEDPOINT_IMPL_ROUND( value, byQBits )` from
`FixedPoint.h` line 151: `(((value) + (1 << ((byQBits)-1))) >> (byQBits))`.
Faithful for `byQBits >= 1` (for `byQBits = 0` the C expression shifts by a
negative amount, which is undefined). -/
def FIXEDPOINT_IMPL_ROUND (value : Int) (byQBits : Nat) : Int :=
  sar (value + 2 ^ (byQBits - 1)) byQBits

/-- Model of the class `tFixedPoint< QBits, DataType >`: the single runtime
field `value_` holding the raw scaled value. -/
structure tFixedPoint (QBits : Nat) where
  value_ : Int
  deriving DecidableEq

namespace tFixedPoint

/-- Model of `static tFixedPoint create( tValue qValue )` (line 178). -/
def create (Q : Nat) (qValue : Int) : tFixedPoint Q := ⟨qValue⟩

/-- Model of `tValue qValue() const` (line 216). -/
def qValue {Q : Nat} (v : tFixedPoint Q) : Int := v.value_

/-- Model of the converting constructor `tFixedPoint( tValue value )`
(line 185): `value_ = value << QBits`. -/
def ofInt (Q : Nat) (value : Int) : tFixedPoint Q := ⟨shl value Q⟩

/-- Model of the constructor
`tFixedPoint( tValue intPart, tValue absFracPart, unsigned qFracBits )`
(lines 198-200): the sign of the integer part decides whether the scaled
fractional magnitude is added or subtracted. -/
def mkParts (Q : Nat) (intPart absFracPart : Int) (qFracBits : Nat) : tFixedPoint Q :=
  ⟨if 0 ≤ intPart then shl intPart Q + shl absFracPart (Q - qFracBits)
   else shl intPart Q - shl absFracPart (Q - qFracBits)⟩

/-- Model of `truncatedTo<QBits2>()` (lines 250-251):
`create( value_ >> (QBits - QBits2) )`.  Faithful for `QBits2 <= QBits`. -/
def truncatedTo {Q : Nat} (Q2 : Nat) (v : tFixedPoint Q) : tFixedPoint Q2 :=
  create Q2 (sar v.value_ (Q - Q2))

/-- Model of `roundedTo<QBits2>()` (lines 252-253):
`create( FIXEDPOINT_IMPL_ROUND( value_, (QBits - QBits2) ) )`.
Faithful for `QBits2 < QBits`. -/
def roundedTo {Q : Nat} (Q2 : Nat) (v : tFixedPoint Q) : tFixedPoint Q2 :=
  create Q2 (FIXEDPOINT_IMPL_ROUND v.value_ (Q - Q2))

/-- Model of `increasedTo<QBits2>()` (lines 254-255):
`create( value_ << (QBits2 - QBits) )`.  Faithful for `QBits <= QBits2`. -/
def increasedTo {Q : Nat} (Q2 : Nat) (v : tFixedPoint Q) : tFixedPoint Q2 :=
  create Q2 (shl v.value_ (Q2 - Q))

/-- Model of the same-type `tValue operator/( const tFixedPoint& value )`
(lines 356-357): `FIXEDPOINT_IMPL_DIVIDE( value_, value.value_ )`.  The
result is a plain `tValue`, not a fixed-point value. -/
def divSame {Q : Nat} (a b : tFixedPoint Q) : Int :=
  FIXEDPOINT_IMPL_DIVIDE a.value_ b.value_

/-- Model of the same-type binary
`tFixedPoint<QBits+QBits,DataType> operator*( const tFixedPoint& value )`
(lines 354-355): `create( value_ * value.value_ )` at `QBits+QBits`
fractional bits, with no rounding. -/
def mulSame {Q : Nat} (a b : tFixedPoint Q) : tFixedPoint (Q + Q) :=
  create (Q + Q) (a.value_ * b.value_)

/-- Modelled from the spec: the helper `roundedBy_` called by the same-type
`operator*=` (line 329) is referenced but nowhere defined in the repository;
per the spec ("for same-type `a *= b` (both p bits), the result is
`round(rawA*rawB, p)` ... consistent with the documented rounding macro") and
by analogy with the cross-type `operator*=` (line 346), it stands for
`FIXEDPOINT_IMPL_ROUND`. -/
def roundedBy_ (value : Int) (byQBits : Nat) : Int :=
  FIXEDPOINT_IMPL_ROUND value byQBits

/-- Model of the same-type `tFixedPoint& operator*=( const tFixedPoint& value )`
(line 329): `value_ = roundedBy_( value_ * value.value_, QBits )`, with
`roundedBy_` as modelled above. -/
def mulAssignSame {Q : Nat} (a b : tFixedPoint Q) : tFixedPoint Q :=
  create Q (roundedBy_ (a.value_ * b.value_) Q)

/-- Model of the cross-type binary
`tFixedPoint<QBits+QBits2,DataType> operator*( const tFixedPoint<QBits2,DataType2>& )`
(lines 372-373): `create( value_ * value.qValue() )` with no rounding. -/
def mulCross {Q Q2 : Nat} (a : tFixedPoint Q) (b : tFixedPoint Q2) :
    tFixedPoint (Q + Q2) :=
  create (Q + Q2) (a.value_ * b.qValue)

/-- Model of the cross-type binary `operator*` (lines 372-373) computed in a
signed `w`-bit storage (the left operand's `DataType` width): the raw product
wraps around two's complement at width `w`. -/
def mulCrossW (w : Nat) {Q Q2 : Nat} (a : tFixedPoint Q) (b : tFixedPoint Q2) :
    tFixedPoint (Q + Q2) :=
  create (Q + Q2) (wrap w (a.value_ * b.qValue))

/-- Model of the cross-type binary
`tFixedPoint<QBits-QBits2,DataType> operator/( const tFixedPoint<QBits2,DataType2>& )`
(lines 374-375): `create( FIXEDPOINT_IMPL_DIVIDE( value_, value.qValue() ) )`.
Note that the dividend is not pre-shifted here. -/
def divCross {Q : Nat} (Q2 : Nat) (a : tFixedPoint Q) (b : tFixedPoint Q2) :
    tFixedPoint (Q - Q2) :=
  create (Q - Q2) (FIXEDPOINT_IMPL_DIVIDE a.value_ b.qValue)

/-- Model of the cross-type compound
`tFixedPoint& operator/=( const tFixedPoint<QBits2,DataType2>& value )`
(lines 347-348):
`value_ = FIXEDPOINT_IMPL_DIVIDE( (value_ << (QBits-QBits2)), value.qValue() )`.
Here the dividend is pre-shifted by `QBits - QBits2`. -/
def divAssignCross {Q Q2 : Nat} (a : tFixedPoint Q) (b : tFixedPoint Q2) :
    tFixedPoint Q :=
  create Q (FIXEDPOINT_IMPL_DIVIDE (shl a.value_ (Q - Q2)) b.qValue)

/-- Model of `tValue intPart() const` (line 381): `value_ >> QBits`. -/
def intPart {Q : Nat} (v : tFixedPoint Q) : Int := sar v.value_ Q

/-- Model of `tValue absFracPart() const` (line 383):
`((value_ >= 0)? value_ : -value_) & ((1 << QBits) - 1)`.  The operand of the
bitwise mask is the non-negative magnitude, so it is modelled as `Nat`. -/
def absFracPart {Q : Nat} (v : tFixedPoint Q) : Nat :=
  v.value_.natAbs &&& (2 ^ Q - 1)

/-- Model of `tValue fracPart() const` (line 382):
`(value_ >= 0)? (value_ & ((1 << QBits) - 1)) : -((-value_) & ((1 << QBits) - 1))`.
Both masked operands equal the magnitude `|value_|`, so each branch masks
`natAbs value_` and the negative branch negates the result. -/
def fracPart {Q : Nat} (v : tFixedPoint Q) : Int :=
  if 0 ≤ v.value_ then ((v.value_.natAbs &&& (2 ^ Q - 1) : Nat) : Int)
  else -((v.value_.natAbs &&& (2 ^ Q - 1) : Nat) : Int)

/-- Model of the same-type member `bool operator<` (line 306). -/
def lt {Q : Nat} (a b : tFixedPoint Q) : Bool := a.value_ < b.value_

/-- Model of the same-type member `bool operator<=` (line 307). -/
def le {Q : Nat} (a b : tFixedPoint Q) : Bool := a.value_ ≤ b.value_

/-- Model of the same-type member `bool operator>=` (line 308). -/
def ge {Q : Nat} (a b : tFixedPoint Q) : Bool := b.value_ ≤ a.value_

/-- Model of the same-type member `bool operator>` (line 309). -/
def gt {Q : Nat} (a b : tFixedPoint Q) : Bool := b.value_ < a.value_

/-- Model of `static tValue rounded_( double value )` (line 446) restricted to
integral arguments: `tValue( value * (tValue(1) << QBits) + 0.5 )` converts
back to the storage type by truncation toward zero.  For an integer scalar
`value`, the double computation is exact throughout the storage range (the
products stay far below `2^52`), and truncating `x + 1/2` at integer `x`
yields `x` when `x >= 0` and `x + 1` when `x < 0`. -/
def rounded_ (Q : Nat) (value : Int) : Int :=
  if 0 ≤ shl value Q then shl value Q else shl value Q + 1

/-- Model of `bool operator<( double value ) const` (line 426) at an integral
scalar: `value_ < rounded_( value )`.  With floating-point support defined
unconditionally (line 122), overload resolution prefers the standard
`int -> double` conversion to the user-defined `int -> tFixedPoint` one, so
an integer scalar operand reaches this overload. -/
def ltDouble {Q : Nat} (v : tFixedPoint Q) (value : Int) : Bool :=
  v.value_ < rounded_ Q value

/-- Model of `bool operator<=( double value ) const` (line 427) at an integral
scalar: `value_ <= rounded_( value )`. -/
def leDouble {Q : Nat} (v : tFixedPoint Q) (value : Int) : Bool :=
  v.value_ ≤ rounded_ Q value

/-- Model of `bool operator>=( double value ) const` (line 428) at an integral
scalar: `value_ >= rounded_( value )`. -/
def geDouble {Q : Nat} (v : tFixedPoint Q) (value : Int) : Bool :=
  rounded_ Q value ≤ v.value_

/-- Model of `bool operator>( double value ) const` (line 429) at an integral
scalar: `value_ > rounded_( value )`. -/
def gtDouble {Q : Nat} (v : tFixedPoint Q) (value : Int) : Bool :=
  rounded_ Q value < v.value_

/-- Model of the loop of `tValue fracPlaces( unsigned decimals )`
(lines 399-406), with an explicit iteration bound `fuel`: one step tests
`frac & mask`, subtracts `mask` from `frac` and adds `dec_qx` to `result`
when set, then halves `mask` and `dec_qx`.  The state variables are the
non-negative `frac`, `mask`, `result` and `dec_qx` of the source; `none` is
returned when `frac` has not reached zero within `fuel` iterations (the C
loop would keep iterating). -/
def fracLoopFuel : Nat → Nat → Nat → Nat → Nat → Option Nat
  | 0, frac, _, result, _ => if frac = 0 then some result else none
  | fuel + 1, frac, mask, result, dec_qx =>
      if frac = 0 then some result
      else if frac &&& mask ≠ 0 then
        fracLoopFuel fuel (frac - mask) (mask >>> 1) (result + dec_qx) (dec_qx >>> 1)
      else
        fracLoopFuel fuel frac (mask >>> 1) result (dec_qx >>> 1)

/-- Model of `tValue fracPlaces( unsigned decimals )` (lines 390-408), with an
explicit iteration bound `fuel` on its loop: `frac` starts at `absFracPart()`,
`cXBits = 4`, `dec_qx` starts at `1 << (cXBits-1)` and is multiplied by ten
`decimals` times, `mask` starts at `1 << (QBits - 1)`, and after the loop the
accumulated result is rounded down by the `cXBits` guard bits. -/
def fracPlaces {Q : Nat} (decimals : Nat) (v : tFixedPoint Q) (fuel : Nat) :
    Option Nat :=
  (fracLoopFuel fuel v.absFracPart (2 ^ (Q - 1)) 0 (2 ^ 3 * 10 ^ decimals)).map
    (fun result => (result + 2 ^ 3) >>> 4)

end tFixedPoint

/-- Model of the free `bool operator<( DataType lhs, const tFixedPoint& rhs )`
(line 465): `return (rhs >= lhs)`.  Because floating-point support is defined
unconditionally (line 122), the standard `int -> double` conversion beats the
user-defined `int -> tFixedPoint` conversion and `rhs >= lhs` resolves to the
member `operator>=( double )` (line 428). -/
def scalarLt {Q : Nat} (lhs : Int) (rhs : tFixedPoint Q) : Bool :=
  rhs.geDouble lhs

/-- Model of the free `bool operator<=( DataType lhs, const tFixedPoint& rhs )`
(line 466): `return (rhs > lhs)`, resolving to `operator>( double )`
(line 429). -/
def scalarLe {Q : Nat} (lhs : Int) (rhs : tFixedPoint Q) : Bool :=
  rhs.gtDouble lhs

/-- Model of the free `bool operator>=( DataType lhs, const tFixedPoint& rhs )`
(line 467): `return (rhs < lhs)`, resolving to `operator<( double )`
(line 426). -/
def scalarGe {Q : Nat} (lhs : Int) (rhs : tFixedPoint Q) : Bool :=
  rhs.ltDouble lhs

/-- Model of the free `bool operator>( DataType lhs, const tFixedPoint& rhs )`
(line 468): `return (rhs <= lhs)`, resolving to `operator<=( double )`
(line 427). -/
def scalarGt {Q : Nat} (lhs : Int) (rhs : tFixedPoint Q) : Bool :=
  rhs.leDouble lhs

/-- Model of the macro `FIXEDPOINT_CONSTANT( FPType, dec,frac )` (lines
132-133) for a target type with `Q` fractional bits.  The token pasting
`(2##frac-1##frac)` evaluates to `10^d` where `d` is the number of decimal
digits written in `frac` (leading zeros included), so `d` is an explicit
parameter here, and the pasted fractional argument is
`((1 << Q)*frac + (10^d)/2) / (10^d)` in non-negative integer arithmetic.
The result goes through the `(intPart, absFracPart, qFracBits)` constructor
with `qFracBits = Q`. -/
def FIXEDPOINT_CONSTANT (Q : Nat) (dec : Int) (frac d : Nat) : tFixedPoint Q :=
  tFixedPoint.mkParts Q dec (((2 ^ Q * frac + 10 ^ d / 2) / 10 ^ d : Nat) : Int) Q

/-- Claim C1: for two fixed-point values `a`, `b` of the same type, `a / b`
returns a plain storage-type integer computed by the documented rounding rule
with `A = a`'s raw value and `B = b`'s raw value:
`(b.qValue() + (a.qValue() >> 1)) / a.qValue()`, under the precondition that
`a`'s raw value is nonzero.  The macro's parameter named `dividend` receives
`a` and ends up as the denominator. -/
theorem same_type_division_rule {Q : Nat} (a b : tFixedPoint Q)
    (ha : a.value_ ≠ 0) :
    tFixedPoint.divSame a b = cdiv (b.qValue + sar a.qValue 1) a.qValue := rfl

/-- Witness for C1: at `Q = 4`, `a` with raw value 3 and `b` with raw value 7,
the quotient is `(7 + (3 >> 1)) / 3 = 2`. -/
theorem same_type_division_rule_witness :
    (3 : Int) ≠ 0 ∧
    tFixedPoint.divSame (⟨3⟩ : tFixedPoint 4) ⟨7⟩ = cdiv (7 + sar 3 1) 3 :=
  ⟨by decide, same_type_division_rule ⟨3⟩ ⟨7⟩ (by decide)⟩

/-- Counterexample for C2: the same-type binary `a * b` (lines 354-355) does
NOT round the raw product back down to the common precision; at `Q = 4` with
both raw values 24 (that is, 1.5), the result's raw value is the unrounded
product `576`, not `FIXEDPOINT_IMPL_ROUND(576, 4) = 36`. -/
theorem same_type_binary_mul_unrounded_cex :
    ¬ ((tFixedPoint.mulSame (⟨24⟩ : tFixedPoint 4) ⟨24⟩).value_ =
        FIXEDPOINT_IMPL_ROUND ((24 : Int) * 24) 4) := by decide

/-- Amended claim C2: the same-type compound `a *= b` (line 329, with the
undefined helper `roundedBy_` modelled as the documented rounding macro)
rounds the raw product back down to `Q` fractional bits,
`((rawA * rawB) + 2^(Q-1)) >> Q`; the same-type binary `a * b` instead
yields the exact unrounded raw product at `Q + Q` fractional bits. -/
theorem same_type_mul_amended {Q : Nat} (hQ : 1 ≤ Q) (a b : tFixedPoint Q) :
    (tFixedPoint.mulAssignSame a b).value_ =
      sar (a.value_ * b.value_ + 2 ^ (Q - 1)) Q ∧
    (tFixedPoint.mulSame a b).value_ = a.value_ * b.value_ :=
  ⟨rfl, rfl⟩

/-- Witness for C2 (amended): at `Q = 4` with both raw values 24, compound
multiplication yields `(576 + 8) >> 4 = 36` and binary multiplication yields
the raw product 576. -/
theorem same_type_mul_amended_witness :
    (1 ≤ 4) ∧
    ((tFixedPoint.mulAssignSame (⟨24⟩ : tFixedPoint 4) ⟨24⟩).value_ =
        sar ((24 : Int) * 24 + 2 ^ 3) 4 ∧
      (tFixedPoint.mulSame (⟨24⟩ : tFixedPoint 4) ⟨24⟩).value_ = 24 * 24) :=
  ⟨by decide, same_type_mul_amended (by decide) ⟨24⟩ ⟨24⟩⟩

/-- Counterexample for C3: the cross-type binary `a / b` (lines 374-375) does
NOT pre-shift the dividend; at `p = 8`, `q = 4`, `rawA = 2`, `rawB = 100`,
the code yields `(100 + (2 >> 1)) / 2 = 50`, not the claimed
`divide(rawA << (p-q), rawB) = (100 + (32 >> 1)) / 32 = 3`. -/
theorem cross_type_binary_div_no_preshift_cex :
    ¬ ((tFixedPoint.divCross (Q := 8) 4 ⟨2⟩ ⟨100⟩).value_ =
        FIXEDPOINT_IMPL_DIVIDE (shl 2 4) 100) := by decide

/-- Amended claim C3: the cross-type binary `a / b` yields `p - q` fractional
bits with raw value `divide(rawA, rawB) = (rawB + (rawA >> 1)) / rawA` (no
pre-shift of the dividend), while only the cross-type compound `a /= b`
pre-shifts the dividend by `p - q`, storing
`(rawB + ((rawA << (p-q)) >> 1)) / (rawA << (p-q))` back at `p` fractional
bits. -/
theorem cross_type_division_amended {Q Q2 : Nat} (hq : Q2 ≤ Q)
    (a : tFixedPoint Q) (b : tFixedPoint Q2) (ha : a.value_ ≠ 0) :
    (tFixedPoint.divCross Q2 a b).value_ =
      cdiv (b.qValue + sar a.qValue 1) a.qValue ∧
    (tFixedPoint.divAssignCross a b).value_ =
      cdiv (b.qValue + sar (shl a.qValue (Q - Q2)) 1) (shl a.qValue (Q - Q2)) :=
  ⟨rfl, rfl⟩

/-- Witness for C3 (amended): at `p = 8`, `q = 4`, `rawA = 2`, `rawB = 100`,
the binary quotient is 50 and the compound quotient is 3. -/
theorem cross_type_division_amended_witness :
    (4 ≤ 8) ∧ ((2 : Int) ≠ 0) ∧
    ((tFixedPoint.divCross (Q := 8) 4 ⟨2⟩ ⟨100⟩).value_ =
        cdiv (100 + sar 2 1) 2 ∧
      (@tFixedPoint.divAssignCross 8 4 ⟨2⟩ ⟨100⟩).value_ =
        cdiv (100 + sar (shl 2 4) 1) (shl 2 4)) :=
  ⟨by decide, by decide, cross_type_division_amended (by decide) ⟨2⟩ ⟨100⟩ (by decide)⟩

/-- Claim C4: the cross-type product `a * b` has exactly `p + q` fractional
bits (the result type index of `mulCross`) and its raw value is the exact
integer product of the raw values with no rounding; computed in a signed
`w`-bit storage it is congruent to that product modulo `2^w` (silent
wrap-around) and equals it exactly whenever the product fits the width. -/
theorem cross_type_mul_exact_product {w Q Q2 : Nat} (hw : 1 ≤ w)
    (a : tFixedPoint Q) (b : tFixedPoint Q2) :
    (tFixedPoint.mulCross a b).value_ = a.value_ * b.value_ ∧
    (tFixedPoint.mulCrossW w a b).value_ % 2 ^ w =
      (a.value_ * b.value_) % 2 ^ w ∧
    (-(2 ^ (w - 1)) ≤ a.value_ * b.value_ → a.value_ * b.value_ < 2 ^ (w - 1) →
      (tFixedPoint.mulCrossW w a b).value_ = a.value_ * b.value_) := by
  have hsplit : (2 : Int) ^ (w - 1) + 2 ^ (w - 1) = 2 ^ w := by
    obtain ⟨n, rfl⟩ : ∃ n, w = n + 1 := ⟨w - 1, (Nat.sub_add_cancel hw).symm⟩
    rw [Nat.add_sub_cancel, pow_succ]; ring
  refine ⟨rfl, ?_, ?_⟩
  · show wrap w (a.value_ * b.value_) % 2 ^ w = (a.value_ * b.value_) % 2 ^ w
    unfold wrap
    set x := a.value_ * b.value_ with hx
    rw [Int.sub_emod ((x + 2 ^ (w - 1)) % 2 ^ w) (2 ^ (w - 1)) (2 ^ w),
      Int.emod_emod_of_dvd _ dvd_rfl, ← Int.sub_emod, add_sub_cancel_right]
  · intro h1 h2
    show wrap w (a.value_ * b.value_) = a.value_ * b.value_
    unfold wrap
    have hnn : 0 ≤ a.value_ * b.value_ + 2 ^ (w - 1) := by linarith
    have hlt : a.value_ * b.value_ + 2 ^ (w - 1) < 2 ^ w := by linarith
    rw [Int.emod_eq_of_lt hnn hlt]; ring

/-- Counterexample for C5: the free `n < v` does not behave as `n <= v` for a
negative scalar.  At `Q = 4`, `n = -2` and `v` with raw value -32 (so `v`
equals `n` exactly), the program compares `-32 >= rounded_(-2.0) = -31`,
returning `false`, while `n <= v` (raw `-32 <= -32`) is true. -/
theorem scalar_lhs_comparisons_cex :
    ¬ (scalarLt (-2) (⟨-32⟩ : tFixedPoint 4) = true ↔
        shl (-2) 4 ≤ (-32 : Int)) := by decide

/-- Amended claim C5: because floating-point support is enabled
unconditionally (line 122), the free scalar-lhs comparisons (lines 465-468)
delegate to the member double overloads (lines 426-429), comparing the raw
value against `rounded_(n) = trunc(n*2^Q + 0.5)`, which is `n*2^Q` for
`n >= 0` and `n*2^Q + 1` for `n < 0`.  Hence `n < v` returns
`v.raw >= rounded_(n)`, `n <= v` returns `v.raw > rounded_(n)`, `n >= v`
returns `v.raw < rounded_(n)` and `n > v` returns `v.raw <= rounded_(n)`.
For `n >= 0` each operator behaves as the swapped-strictness comparison and
disagrees with the mathematical comparison exactly when `v` equals `n`; for
`n < 0` the operators `<` and `>=` coincide with the mathematical comparison
everywhere, while `<=` and `>` disagree with it exactly when `v`'s raw value
is `n*2^Q` or `n*2^Q + 1`. -/
theorem scalar_lhs_comparisons_amended {Q : Nat} (n : Int) (v : tFixedPoint Q) :
    (scalarLt n v = true ↔ tFixedPoint.rounded_ Q n ≤ v.value_) ∧
    (scalarLe n v = true ↔ tFixedPoint.rounded_ Q n < v.value_) ∧
    (scalarGe n v = true ↔ v.value_ < tFixedPoint.rounded_ Q n) ∧
    (scalarGt n v = true ↔ v.value_ ≤ tFixedPoint.rounded_ Q n) ∧
    (tFixedPoint.rounded_ Q n = if 0 ≤ n then shl n Q else shl n Q + 1) ∧
    (0 ≤ n →
      (scalarLt n v = true ↔ shl n Q ≤ v.value_) ∧
      (scalarLe n v = true ↔ shl n Q < v.value_) ∧
      (scalarGe n v = true ↔ v.value_ < shl n Q) ∧
      (scalarGt n v = true ↔ v.value_ ≤ shl n Q) ∧
      ((scalarLt n v = decide (shl n Q < v.value_)) ↔ v.value_ ≠ shl n Q) ∧
      ((scalarLe n v = decide (shl n Q ≤ v.value_)) ↔ v.value_ ≠ shl n Q) ∧
      ((scalarGe n v = decide (v.value_ ≤ shl n Q)) ↔ v.value_ ≠ shl n Q) ∧
      ((scalarGt n v = decide (v.value_ < shl n Q)) ↔ v.value_ ≠ shl n Q)) ∧
    (n < 0 →
      (scalarLt n v = decide (shl n Q < v.value_)) ∧
      (scalarGe n v = decide (v.value_ ≤ shl n Q)) ∧
      ((scalarLe n v = decide (shl n Q ≤ v.value_)) ↔
        (v.value_ ≠ shl n Q ∧ v.value_ ≠ shl n Q + 1)) ∧
      ((scalarGt n v = decide (v.value_ < shl n Q)) ↔
        (v.value_ ≠ shl n Q ∧ v.value_ ≠ shl n Q + 1))) := by
  have hpow : (0 : Int) < 2 ^ Q := by positivity
  obtain ⟨x⟩ := v
  have hR : tFixedPoint.rounded_ Q n =
      if 0 ≤ n then shl n Q else shl n Q + 1 := by
    rw [tFixedPoint.rounded_]
    rcases le_or_lt 0 n with hn | hn
    · rw [if_pos (show (0 : Int) ≤ shl n Q from mul_nonneg hn hpow.le),
        if_pos hn]
    · rw [if_neg (show ¬ (0 : Int) ≤ shl n Q from
          not_le.mpr (mul_neg_of_neg_of_pos hn hpow)), if_neg (not_le.mpr hn)]
  rcases le_or_lt 0 n with hn | hn
  · have hR2 : tFixedPoint.rounded_ Q n = shl n Q := by rw [hR, if_pos hn]
    refine ⟨?_, ?_, ?_, ?_, hR, fun _ => ⟨?_, ?_, ?_, ?_, ?_, ?_, ?_, ?_⟩,
      fun hcon => absurd hn (not_le.mpr hcon)⟩ <;>
      · simp only [scalarLt, scalarLe, scalarGe, scalarGt, tFixedPoint.ltDouble,
          tFixedPoint.leDouble, tFixedPoint.geDouble, tFixedPoint.gtDouble, hR2,
          decide_eq_true_eq, decide_eq_decide]
        try generalize shl n Q = m
        try omega
  · have hR2 : tFixedPoint.rounded_ Q n = shl n Q + 1 := by
      rw [hR, if_neg (not_le.mpr hn)]
    refine ⟨?_, ?_, ?_, ?_, hR, fun hcon => absurd hcon (not_le.mpr hn),
      fun _ => ⟨?_, ?_, ?_, ?_⟩⟩ <;>
      · simp only [scalarLt, scalarLe, scalarGe, scalarGt, tFixedPoint.ltDouble,
          tFixedPoint.leDouble, tFixedPoint.geDouble, tFixedPoint.gtDouble, hR2,
          decide_eq_true_eq, decide_eq_decide]
        try generalize shl n Q = m
        try omega

/-- Witness for C5 (amended): at `Q = 4`, `n = -2` and raw value -33, the
free `n < v` agrees with the mathematical strict comparison (both false),
exercising the negative-scalar branch of the amended theorem. -/
theorem scalar_lhs_comparisons_amended_witness :
    scalarLt (-2) (⟨-33⟩ : tFixedPoint 4) =
      decide (shl (-2) 4 < (-33 : Int)) :=
  ((scalar_lhs_comparisons_amended (-2) ⟨-33⟩).2.2.2.2.2.2 (by decide)).1

/-- Claim C6: widening then narrowing is the identity; for a value at
precision `p` and any `q > p`, `v.increasedTo<q>().truncatedTo<p>() == v`
exactly, since `(rawV << (q-p)) >> (q-p) == rawV`. -/
theorem widen_then_truncate_id {Q Q2 : Nat} (h : Q < Q2) (v : tFixedPoint Q) :
    tFixedPoint.truncatedTo Q (tFixedPoint.increasedTo Q2 v) = v := by
  obtain ⟨x⟩ := v
  simp only [tFixedPoint.increasedTo, tFixedPoint.truncatedTo,
    tFixedPoint.create, shl, sar, tFixedPoint.mk.injEq]
  exact Int.mul_fdiv_cancel x (by positivity)

/-- Witness for C6: widening a `Q = 2` value with raw value -7 to `Q2 = 5`
bits and truncating back down returns the original value. -/
theorem widen_then_truncate_id_witness :
    (2 < 5) ∧
    tFixedPoint.truncatedTo 2 (tFixedPoint.increasedTo 5 (⟨-7⟩ : tFixedPoint 2)) =
      ⟨-7⟩ :=
  ⟨by decide, widen_then_truncate_id (by decide) ⟨-7⟩⟩

/-- Claim C7: when the fractional remainder below the target precision is
exactly half the least-significant unit of the reduced precision
(`rawV mod 2^d = 2^(d-1)` with `d = QBits - targetBits`), `roundedTo`
rounds toward positive infinity for positive and negative values alike: the
result is the floor `rawV >> d` plus one (so it neither rounds to even nor
away from zero). -/
theorem rounded_to_half_rounds_up {Q Q2 : Nat} (h : Q2 < Q) (v : tFixedPoint Q)
    (hhalf : v.value_ % 2 ^ (Q - Q2) = 2 ^ (Q - Q2 - 1)) :
    (tFixedPoint.roundedTo Q2 v).value_ = sar v.value_ (Q - Q2) + 1 := by
  obtain ⟨x⟩ := v
  have hd1 : 1 ≤ Q - Q2 := by omega
  show FIXEDPOINT_IMPL_ROUND x (Q - Q2) = sar x (Q - Q2) + 1
  revert hhalf
  generalize Q - Q2 = d at hd1 ⊢
  intro hhalf
  have hm0 : (0 : Int) < 2 ^ d := by positivity
  have hsplit : (2 : Int) ^ (d - 1) + 2 ^ (d - 1) = 2 ^ d := by
    obtain ⟨n, rfl⟩ : ∃ n, d = n + 1 := ⟨d - 1, (Nat.sub_add_cancel hd1).symm⟩
    rw [Nat.add_sub_cancel, pow_succ]; ring
  have h3 := Int.ediv_add_emod x (2 ^ d)
  simp only [FIXEDPOINT_IMPL_ROUND, sar]
  rw [Int.fdiv_eq_ediv _ (le_of_lt hm0), Int.fdiv_eq_ediv _ (le_of_lt hm0)]
  have hnum : x + 2 ^ (d - 1) = (x / 2 ^ d + 1) * 2 ^ d := by
    have : x % 2 ^ d = 2 ^ (d - 1) := hhalf
    ring_nf
    linarith [h3, this, hsplit]
  rw [hnum, Int.mul_ediv_cancel _ (ne_of_gt hm0)]

/-- Witness for C7: at `Q = 4`, `Q2 = 2`, raw value -6 (that is, -0.375 at
`Q = 4`) has remainder `-6 mod 4 = 2`, exactly half of 4; rounding to 2 bits
gives `(-6 + 2) >> 2 = -1` (that is, -0.25: toward positive infinity), which
is the floor -2 plus one. -/
theorem rounded_to_half_rounds_up_witness :
    (2 < 4) ∧ ((-6 : Int) % 2 ^ 2 = 2 ^ 1) ∧
    (tFixedPoint.roundedTo 2 (⟨-6⟩ : tFixedPoint 4)).value_ = sar (-6) 2 + 1 :=
  ⟨by decide, by decide, rounded_to_half_rounds_up (by decide) ⟨-6⟩ (by decide)⟩

/-- Claim C8: for a target type with `Q` fractional bits, integer part `dec`,
and a fractional sequence of `d` decimal digits `frac`, the decimal-constant
macro produces `T(dec, (2^Q * frac + 10^d/2) / 10^d, Q)`: the base-10
fractional digits rescaled to `Q` fractional bits with round-half-up, the
magnitude added to `dec << Q` when `dec >= 0` and subtracted from it when
`dec < 0`; in particular `FIXEDPOINT_CONSTANT( tFixedPoint<4>, -1,25 )` has
raw value -20, representing -1.25. -/
theorem fixedpoint_constant_eval {Q : Nat} (dec : Int) (frac d : Nat)
    (hd : 1 ≤ d) :
    (FIXEDPOINT_CONSTANT Q dec frac d).value_ =
      (if 0 ≤ dec
        then shl dec Q + ((2 ^ Q * frac + 10 ^ d / 2) / 10 ^ d : Nat)
        else shl dec Q - ((2 ^ Q * frac + 10 ^ d / 2) / 10 ^ d : Nat)) ∧
    (FIXEDPOINT_CONSTANT 4 (-1) 25 2).value_ = -20 := by
  constructor
  · simp only [FIXEDPOINT_CONSTANT, tFixedPoint.mkParts, Nat.sub_self]
    by_cases hdec : 0 ≤ dec <;>
      simp [hdec, shl, pow_zero, mul_one]
  · decide

/-- Witness for C8: at `Q = 4`, `dec = -1`, `frac = 25` (two digits), the
constant macro yields raw value `-1*16 - (16*25 + 50)/100 = -20`, which is
-1.25 at 4 fractional bits. -/
theorem fixedpoint_constant_eval_witness :
    (FIXEDPOINT_CONSTANT 4 (-1) 25 2).value_ = -20 :=
  (fixedpoint_constant_eval (Q := 4) (-1) 25 2 (by decide)).2

/-- Claim C9: the decomposition identity
`intPart() * 2^QBits + fracPart() == qValue()` holds exactly when the raw
value is non-negative or its low `QBits` bits vanish (`rawV mod 2^QBits = 0`);
for a negative value with a nonzero fractional part the sum instead equals
`qValue() - 2^QBits`, because `intPart()` floors toward negative infinity
while `fracPart()` carries the sign of the value. -/
theorem intPart_fracPart_decomposition {Q : Nat} (v : tFixedPoint Q) :
    (tFixedPoint.intPart v * 2 ^ Q + tFixedPoint.fracPart v = v.value_ ↔
      0 ≤ v.value_ ∨ v.value_ % 2 ^ Q = 0) ∧
    (v.value_ < 0 → v.value_ % 2 ^ Q ≠ 0 →
      tFixedPoint.intPart v * 2 ^ Q + tFixedPoint.fracPart v =
        v.value_ - 2 ^ Q) := by
  obtain ⟨x⟩ := v
  have hm0 : (0 : Int) < 2 ^ Q := by positivity
  have hmask : ∀ y : Int, ((y.natAbs &&& (2 ^ Q - 1) : Nat) : Int) =
      ((y.natAbs : Int)) % 2 ^ Q := by
    intro y
    rw [Nat.and_pow_two_sub_one_eq_mod, Int.natCast_mod]
    push_cast
    rfl
  simp only [tFixedPoint.intPart, tFixedPoint.fracPart, sar,
    Int.fdiv_eq_ediv _ (le_of_lt hm0), hmask]
  have h3 := Int.ediv_add_emod x (2 ^ Q)
  rcases le_or_lt 0 x with hx | hx
  · rw [if_pos hx, Int.natAbs_of_nonneg hx]
    constructor
    · constructor
      · intro _; exact Or.inl hx
      · intro _; linarith [h3]
    · intro hneg; omega
  · rw [if_neg (not_le.mpr hx), Int.ofNat_natAbs_of_nonpos (le_of_lt hx)]
    have h4 := Int.ediv_add_emod (-x) (2 ^ Q)
    have h5 := Int.emod_nonneg x (ne_of_gt hm0)
    have h6 := Int.emod_lt_of_pos x hm0
    have h7 := Int.emod_nonneg (-x) (ne_of_gt hm0)
    have h8 := Int.emod_lt_of_pos (-x) hm0
    have hkey : (x % 2 ^ Q + (-x) % 2 ^ Q) % 2 ^ Q = 0 := by
      rw [← Int.add_emod]
      simp
    have hsum2 : x % 2 ^ Q + (-x) % 2 ^ Q = 0 ∨
        x % 2 ^ Q + (-x) % 2 ^ Q = 2 ^ Q := by
      rcases lt_or_le (x % 2 ^ Q + (-x) % 2 ^ Q) (2 ^ Q) with hlt | hge
      · left
        have heq := Int.emod_eq_of_lt (by linarith : (0 : Int) ≤ _) hlt
        linarith [hkey, heq]
      · right
        have hnn2 : (0 : Int) ≤ x % 2 ^ Q + (-x) % 2 ^ Q - 2 ^ Q := by linarith
        have hlt2 : x % 2 ^ Q + (-x) % 2 ^ Q - 2 ^ Q < 2 ^ Q := by linarith
        have hs : (x % 2 ^ Q + (-x) % 2 ^ Q - 2 ^ Q) % 2 ^ Q = 0 := by
          rw [Int.sub_emod, Int.emod_self, sub_zero,
            Int.emod_emod_of_dvd _ dvd_rfl, hkey]
        have heq := Int.emod_eq_of_lt hnn2 hlt2
        linarith [hs, heq]
    constructor
    · constructor
      · intro hsum
        right
        nlinarith [h3, h4, hsum]
      · rintro (habs | hzero)
        · exact absurd habs (not_le.mpr hx)
        · have h9 : (-x) % 2 ^ Q = 0 := by
            rcases hsum2 with h | h <;> linarith
          rw [h9]
          linarith [h3, hzero]
    · intro _ hnz
      have hpos : 0 < x % 2 ^ Q := lt_of_le_of_ne h5 (Ne.symm hnz)
      have h9 : x % 2 ^ Q + (-x) % 2 ^ Q = 2 ^ Q := by
        rcases hsum2 with h | h <;> linarith
      linarith [h3, h9]

/-- Witness for C9: at `Q = 4` the raw value -21 is negative with nonzero low
bits, and indeed `intPart * 16 + fracPart = (-2)*16 + (-5) = -37 = -21 - 16`. -/
theorem intPart_fracPart_decomposition_witness :
    ((-21 : Int) < 0) ∧ ((-21 : Int) % 2 ^ 4 ≠ 0) ∧
    tFixedPoint.intPart (⟨-21⟩ : tFixedPoint 4) * 2 ^ 4 +
      tFixedPoint.fracPart (⟨-21⟩ : tFixedPoint 4) = -21 - 2 ^ 4 :=
  ⟨by decide, by decide,
    (intPart_fracPart_decomposition ⟨-21⟩).2 (by decide) (by decide)⟩

/-- Helper: mapping a function over an option does not change whether it is
`some`. -/
theorem isSome_map_eq {α β : Type} (f : α → β) (o : Option α) :
    (o.map f).isSome = o.isSome := by cases o <;> rfl

/-- Helper for C10: starting from any `frac < 2^(n+1)` with mask `2^n`, the
`fracPlaces` loop reaches `frac = 0` within `n + 1` iterations, because each
iteration clears the tested bit (when set) and halves the mask. -/
theorem fracLoopFuel_terminates (n : Nat) : ∀ (frac r d : Nat),
    frac < 2 ^ (n + 1) →
    (tFixedPoint.fracLoopFuel (n + 1) frac (2 ^ n) r d).isSome := by
  induction n with
  | zero =>
    intro frac r d h
    interval_cases frac
    · simp [tFixedPoint.fracLoopFuel]
    · simp [tFixedPoint.fracLoopFuel]
  | succ n ih =>
    intro frac r d h
    have hpow : 2 ^ (n + 1 + 1) = 2 * 2 ^ (n + 1) := by ring
    have hpos : 0 < 2 ^ (n + 1) := by positivity
    have hmask : 2 ^ (n + 1) >>> 1 = 2 ^ n := by
      rw [Nat.shiftRight_eq_div_pow, pow_one, pow_succ,
        Nat.mul_div_cancel _ (by norm_num : 0 < 2)]
    simp only [tFixedPoint.fracLoopFuel]
    by_cases hf : frac = 0
    · rw [if_pos hf]
      rfl
    · rw [if_neg hf]
      by_cases hbit : frac &&& 2 ^ (n + 1) = 0
      · rw [if_neg (not_not_intro hbit), hmask]
        apply ih
        have hand := Nat.and_two_pow frac (n + 1)
        rw [hbit] at hand
        have hfalse : frac.testBit (n + 1) = false := by
          cases hh : frac.testBit (n + 1)
          · rfl
          · rw [hh] at hand
            exact absurd hand.symm (by simpa using hpos.ne')
        have htb := Nat.testBit_to_div_mod (x := frac) (i := n + 1)
        rw [hfalse] at htb
        have hne1 := of_decide_eq_false htb.symm
        have htlt : frac / 2 ^ (n + 1) < 2 := by
          rw [Nat.div_lt_iff_lt_mul hpos]
          calc frac < 2 ^ (n + 1 + 1) := h
            _ = 2 * 2 ^ (n + 1) := hpow
        have ht0 : frac / 2 ^ (n + 1) = 0 := by
          interval_cases hfd : (frac / 2 ^ (n + 1))
          · rfl
          · exact absurd rfl hne1
        have hdm := Nat.div_add_mod frac (2 ^ (n + 1))
        rw [ht0, Nat.mul_zero, Nat.zero_add] at hdm
        rw [← hdm]
        exact Nat.mod_lt _ hpos
      · rw [if_pos hbit, hmask]
        apply ih
        have h2 : frac < 2 * 2 ^ (n + 1) := by rw [← hpow]; exact h
        generalize 2 ^ (n + 1) = M at h2 ⊢
        omega

/-- Claim C10: for `QBits >= 1` the `fracPlaces` loop terminates: `frac`
starts at `absFracPart()`, which is strictly below `2^QBits`, the mask starts
at `2^(QBits-1)` and halves each iteration while every set bit of `frac` is
subtracted, so `frac` reaches zero within at most `QBits` iterations (the
fuel-indexed loop run with fuel `QBits` already returns a result). -/
theorem frac_places_terminates {Q : Nat} (hQ : 1 ≤ Q) (decimals : Nat)
    (v : tFixedPoint Q) :
    tFixedPoint.absFracPart v < 2 ^ Q ∧
    (tFixedPoint.fracPlaces decimals v Q).isSome := by
  have hb : tFixedPoint.absFracPart v < 2 ^ Q := by
    rw [tFixedPoint.absFracPart, Nat.and_pow_two_sub_one_eq_mod]
    exact Nat.mod_lt _ (by positivity)
  refine ⟨hb, ?_⟩
  rw [tFixedPoint.fracPlaces, isSome_map_eq]
  obtain ⟨n, rfl⟩ : ∃ n, Q = n + 1 := ⟨Q - 1, (Nat.sub_add_cancel hQ).symm⟩
  rw [Nat.add_sub_cancel]
  exact fracLoopFuel_terminates n _ _ _ hb

/-- Witness for C10: at `Q = 8` the value with raw value -589 has
`absFracPart = 77 < 256` and its `fracPlaces(3)` loop finishes within 8
iterations. -/
theorem frac_places_terminates_witness :
    (1 ≤ 8) ∧
    (tFixedPoint.absFracPart (⟨-589⟩ : tFixedPoint 8) < 2 ^ 8 ∧
      (tFixedPoint.fracPlaces 3 (⟨-589⟩ : tFixedPoint 8) 8).isSome) :=
  ⟨by decide, frac_places_terminates (by decide) 3 ⟨-589⟩⟩

/-- Witness for C4: at width 8, multiplying `Q = 4` raw value 20 by `Q2 = 2`
raw value 5 gives the exact product 100 (it fits a signed byte), at `4 + 2`
fractional bits. -/
theorem cross_type_mul_exact_product_witness :
    (tFixedPoint.mulCrossW 8 (⟨20⟩ : tFixedPoint 4) (⟨5⟩ : tFixedPoint 2)).value_ =
      20 * 5 :=
  (cross_type_mul_exact_product (by decide) ⟨20⟩ ⟨5⟩).2.2 (by decide) (by decide)
